import Mathlib

/-!
# Verification of the ow-mod-man core against its specification

Shallow embedding of the mod manager's core logic:

* `owmods_core/src/progress.rs` — the textual progress-event protocol
  (`ProgressPayload.parse`) and the `ProgressBar` handle with its
  drop-triggered auto-finish.
* `owmods-core/src/toggle.rs` — the dependency-aware enable/disable
  algorithm over a modelled filesystem and local database.
* `owmods_gui/backend/src/commands.rs` — the busy-set bookkeeping of the
  install/update orchestrator commands and the log-clearing command.

Rust `u32` arithmetic is modelled on `Nat` with an explicit `% 2 ^ 32`
where overflow can occur; fallible Rust code (including `unwrap` panics)
is modelled with `Except`/`Option`.
-/

namespace OwModMan

/-! ## Progress event protocol (`owmods_core/src/progress.rs`) -/

/-- `split_once` from Rust's `str`, on the character list of the string:
splits at the first occurrence of `sep`, returning `none` when `sep`
does not occur. -/
def splitOnce (sep : Char) : List Char → Option (List Char × List Char)
  | [] => none
  | c :: rest =>
    if c = sep then some ([], rest)
    else
      match splitOnce sep rest with
      | some (a, b) => some (c :: a, b)
      | none => none

/-- Rust's `str::parse::<u32>`: an optional leading `+`, then one or more
ASCII digits, and the value must fit in a `u32`. -/
def parseU32 (s : List Char) : Option Nat :=
  let t := match s with
    | '+' :: rest => rest
    | other => other
  if t = [] then none
  else if t.all (fun c => c.isDigit) then
    let v := t.foldl (fun acc c => acc * 10 + (c.toNat - '0'.toNat)) 0
    if v < 2 ^ 32 then some v else none
  else none

/-- `ProgressType` from progress.rs. -/
inductive ProgressType where
  | Definite
  | Indefinite
deriving DecidableEq, Repr

/-- `ProgressType::parse`: anything other than `"Definite"` is `Indefinite`. -/
def ProgressType.parse (input : String) : ProgressType :=
  if input = "Definite" then .Definite else .Indefinite

/-- `ProgressAction` from progress.rs. -/
inductive ProgressAction where
  | Download
  | Extract
deriving DecidableEq, Repr

/-- `ProgressAction::parse`: unknown actions default to `Download`. -/
def ProgressAction.parse (input : String) : ProgressAction :=
  if input = "Download" then .Download
  else if input = "Extract" then .Extract
  else .Download

/-- `ProgressStartPayload`. -/
structure ProgressStartPayload where
  id : String
  len : Nat
  msg : String
  progress_type : ProgressType
  progress_action : ProgressAction
deriving DecidableEq, Repr

/-- `ProgressIncrementPayload`. -/
structure ProgressIncrementPayload where
  id : String
  progress : Nat
deriving DecidableEq, Repr

/-- `ProgressMessagePayload`. -/
structure ProgressMessagePayload where
  id : String
  msg : String
deriving DecidableEq, Repr

/-- `ProgressFinishPayload`. -/
structure ProgressFinishPayload where
  id : String
  success : Bool
  msg : String
deriving DecidableEq, Repr

/-- `ProgressPayload`: one decoded progress event. -/
inductive ProgressPayload where
  | Start (p : ProgressStartPayload)
  | Increment (p : ProgressIncrementPayload)
  | Msg (p : ProgressMessagePayload)
  | Finish (p : ProgressFinishPayload)
  | Unknown
deriving DecidableEq, Repr

/-- `ProgressPayload::parse` from progress.rs. Every `unwrap` in the Rust
source (on `split_once` and on the numeric `parse`) is modelled as
`Except.error ()`, i.e. a panic; `Except.ok` is a normal return. -/
def ProgressPayload.parse (input : String) : Except Unit ProgressPayload :=
  match splitOnce '|' input.data with
  | none => .error ()
  | some (action, rest) =>
    match splitOnce '|' rest with
    | none => .error ()
    | some (id, args) =>
      if action = "Start".data then
        match splitOnce '|' args with
        | none => .error ()
        | some (len, r) =>
          match splitOnce '|' r with
          | none => .error ()
          | some (ptype, r2) =>
            match splitOnce '|' r2 with
            | none => .error ()
            | some (paction, msg) =>
              match parseU32 len with
              | none => .error ()
              | some n =>
                .ok (.Start ⟨String.mk id, n, String.mk msg,
                  ProgressType.parse (String.mk ptype),
                  ProgressAction.parse (String.mk paction)⟩)
      else if action = "Increment".data then
        match parseU32 args with
        | none => .error ()
        | some n => .ok (.Increment ⟨String.mk id, n⟩)
      else if action = "Msg".data then
        .ok (.Msg ⟨String.mk id, String.mk args⟩)
      else if action = "Finish".data then
        match splitOnce '|' args with
        | none => .error ()
        | some (success, r) =>
          .ok (.Finish ⟨String.mk id, success = "true".data, String.mk r⟩)
      else
        .ok .Unknown

/-! ### The `ProgressBar` handle

The Rust struct logs pipe-delimited lines through the `progress` logging
target; here the emitted lines are modelled structurally as `BarEvent`s
returned alongside the new bar state. -/

/-- One emitted progress log line, modelled structurally. -/
inductive BarEvent where
  | start (id : String) (len : Nat) (ptype : ProgressType)
      (paction : ProgressAction) (msg : String)
  | increment (id : String) (progress : Nat)
  | message (id : String) (msg : String)
  | finish (id : String) (success : Bool) (msg : String)
deriving DecidableEq, Repr

/-- The `ProgressBar` struct from progress.rs. -/
structure ProgressBar where
  id : String
  len : Nat
  progress : Nat
  failure_message : String
  complete : Bool
deriving DecidableEq, Repr

/-- `ProgressBar::new`: fresh bar plus the `Start` line it logs. -/
def ProgressBar.new (id : String) (len : Nat) (msg failure_message : String)
    (ptype : ProgressType) (paction : ProgressAction) :
    ProgressBar × BarEvent :=
  (⟨id, len, 0, failure_message, false⟩, .start id len ptype paction msg)

/-- `ProgressBar::inc`: `u32` addition wraps at `2 ^ 32`; the stored value
is clamped to `len` when the (wrapped) sum reaches it. -/
def ProgressBar.inc (bar : ProgressBar) (amount : Nat) :
    ProgressBar × BarEvent :=
  let sum := (bar.progress + amount) % 2 ^ 32
  let newProgress := if bar.len ≤ sum then bar.len else sum
  ({ bar with progress := newProgress }, .increment bar.id newProgress)

/-- `ProgressBar::set_msg`: logs a `Msg` line, no state change. -/
def ProgressBar.set_msg (bar : ProgressBar) (msg : String) : BarEvent :=
  .message bar.id msg

/-- `ProgressBar::finish`: marks the bar complete; when `success` is false
the logged message is the bar's failure message. -/
def ProgressBar.finish (bar : ProgressBar) (success : Bool) (msg : String) :
    ProgressBar × BarEvent :=
  ({ bar with complete := true },
    .finish bar.id success (if success then msg else bar.failure_message))

/-- `impl Drop for ProgressBar`: a bar not yet complete finishes
unsuccessfully with an empty message. -/
def ProgressBar.dropBar (bar : ProgressBar) : List BarEvent :=
  if bar.complete then [] else [(bar.finish false "").2]

/-- One call a client can make on a live progress bar. -/
inductive BarCall where
  | inc (amount : Nat)
  | setMsg (msg : String)
  | finishCall (success : Bool) (msg : String)
deriving DecidableEq, Repr

/-- Run a sequence of calls on a bar, collecting the emitted events. -/
def runCalls : ProgressBar → List BarCall → ProgressBar × List BarEvent
  | bar, [] => (bar, [])
  | bar, c :: rest =>
    let step : ProgressBar × List BarEvent :=
      match c with
      | .inc a => let r := bar.inc a; (r.1, [r.2])
      | .setMsg m => (bar, [bar.set_msg m])
      | .finishCall s m => let r := bar.finish s m; (r.1, [r.2])
    let next := runCalls step.1 rest
    (next.1, step.2 ++ next.2)

/-- Full lifetime of one bar: creation, a sequence of calls, then drop. -/
def barTrace (id : String) (len : Nat) (msg fmsg : String)
    (ptype : ProgressType) (paction : ProgressAction)
    (calls : List BarCall) : List BarEvent :=
  let born := ProgressBar.new id len msg fmsg ptype paction
  let run := runCalls born.1 calls
  born.2 :: (run.2 ++ run.1.dropBar)

/-- Whether an emitted event is a `Finish` line. -/
def BarEvent.isFinish : BarEvent → Bool
  | .finish _ _ _ => true
  | _ => false

/-- Number of `Finish` lines in an event list. -/
def countFinishEvents (evs : List BarEvent) : Nat :=
  (evs.filter BarEvent.isFinish).length

/-- Number of explicit `finish` calls in a call list. -/
def countFinishCalls (calls : List BarCall) : Nat :=
  (calls.filter (fun c => match c with
    | .finishCall _ _ => true
    | _ => false)).length

/-! ## Dependency & toggle engine (`owmods-core/src/toggle.rs`)

The filesystem a mod install root provides is modelled per mod directory:
each mod path owns a `config.json`, a `default-config.json` and a
`manifest.json`; the three file names are distinct, so the three kinds of
file are kept in three disjoint maps keyed by the mod path. A map entry
`some none` is a file that exists but fails to parse; `none` is a missing
file. -/

/-- Free-form `settings` object of a mod configuration, kept abstract as
key/value pairs (its content is never inspected by the toggle code). -/
abbrev Settings := List (String × String)

/-- `ModStubConfig` from toggle.rs: the slice of `config.json` the toggle
code reads and writes. -/
structure ModStubConfig where
  enabled : Bool
  settings : Option Settings
deriving DecidableEq, Repr

/-- The dependency-relevant slice of a mod's `manifest.json`. -/
structure Manifest where
  unique_name : String
  dependencies : Option (List String)
deriving DecidableEq, Repr

/-- Modelled from the spec: a valid local database entry as used by the
toggle code (`mods/local.rs` is not among the provided sources) — the
unique name and the absolute install path. -/
structure LocalMod where
  unique_name : String
  mod_path : String
deriving DecidableEq, Repr

/-- Modelled from the spec: the `LocalDatabase` mapping from unique name
to local mod (`db.rs` is not among the provided sources), as a list of
entries with unique keys looked up by name. -/
abbrev LocalDatabase := List LocalMod

/-- Modelled from the spec: `LocalDatabase::get_mod` — O(1) lookup by
unique name returning an absence signal instead of panicking. -/
def get_mod : LocalDatabase → String → Option LocalMod
  | [], _ => none
  | m :: rest, name => if m.unique_name = name then some m else get_mod rest name

/-- Manifest files of the install root: mod path to parse outcome. -/
abbrev ManifestMap := List (String × Option Manifest)

/-- Lookup of a mod path's manifest file in the install root. -/
def lookupManifest : ManifestMap → String → Option (Option Manifest)
  | [], _ => none
  | (p, m) :: rest, q => if p = q then some m else lookupManifest rest q

/-- The filesystem state the toggle code reads and writes, split by file
kind (the three file names inside a mod directory are distinct). -/
structure FS where
  configs : String → Option (Option ModStubConfig)
  defaults : String → Option (Option ModStubConfig)
  manifests : ManifestMap

/-- `write_config`: serialize the config to the mod's `config.json`
(a written file always parses back to the value written). -/
def FS.writeConfig (fs : FS) (modPath : String) (conf : ModStubConfig) : FS :=
  { fs with configs := fun q => if q = modPath then some (some conf) else fs.configs q }

/-- `copy_default_config` from toggle.rs: requires `default-config.json`
to exist and parse, then writes its content as `config.json`. -/
def copy_default_config (modPath : String) (fs : FS) : Except Unit FS :=
  match fs.defaults modPath with
  | some (some conf) => .ok (fs.writeConfig modPath conf)
  | some none => .error ()
  | none => .error ()

/-- `get_mod_enabled` from toggle.rs: a missing `config.json` reads as
disabled, a malformed one is an error. -/
def get_mod_enabled (modPath : String) (fs : FS) : Except Unit Bool :=
  match fs.configs modPath with
  | some (some conf) => .ok conf.enabled
  | some none => .error ()
  | none => .ok false

/-- Modelled from the spec: `read_local_mod` (`db.rs` is not among the
provided sources) parses `manifest.json` in the given mod directory;
a missing or malformed manifest is an error. -/
def read_local_mod (modPath : String) (fs : FS) : Except Unit Manifest :=
  match lookupManifest fs.manifests modPath with
  | some (some m) => .ok m
  | some none => .error ()
  | none => .error ()

/-- Outcome of a `toggle_mod` run under a fuel bound: `ok` and `err`
mirror the Rust `Result`; `diverge` marks that the recursion exceeded the
fuel, i.e. the Rust code would still be recursing at that depth. -/
inductive TRes where
  | ok (fs : FS)
  | err
  | diverge

/-- The dependency loop of `toggle_mod`, parameterized by the recursive
toggle step: each dependency that resolves in the database is toggled at
the resolved mod path; the first error (or fuel exhaustion) stops the
loop, mirroring the `?` in the Rust `for` body. -/
def toggleDeps (step : String → FS → TRes) : List String → LocalDatabase → FS → TRes
  | [], _, fs => .ok fs
  | dep :: rest, localDb, fs =>
    match get_mod localDb dep with
    | none => toggleDeps step rest localDb fs
    | some depMod =>
      match step depMod.mod_path fs with
      | .ok fs1 => toggleDeps step rest localDb fs1
      | .err => .err
      | .diverge => .diverge

/-- `toggle_mod` from toggle.rs, with a fuel bound on the recursion
depth. Writes (or first materializes) the mod's `config.json` with the
requested `enabled` value; when `recursive` is set it re-reads the mod's
manifest and toggles every dependency that resolves in the database,
passing the `recursive` flag through, and silently skips names that do
not resolve. -/
def toggle_mod (fuel : Nat) (modPath : String) (localDb : LocalDatabase)
    (enabled recursive : Bool) (fs : FS) : TRes :=
  match fuel with
  | 0 => .diverge
  | fuel + 1 =>
    let step1 : TRes :=
      match fs.configs modPath with
      | some (some conf) =>
        .ok (fs.writeConfig modPath { conf with enabled := enabled })
      | some none => .err
      | none =>
        match copy_default_config modPath fs with
        | .error _ => .err
        | .ok fs1 => toggle_mod fuel modPath localDb enabled recursive fs1
    match step1 with
    | .err => .err
    | .diverge => .diverge
    | .ok fs1 =>
      if recursive then
        match read_local_mod modPath fs1 with
        | .error _ => .err
        | .ok manifest =>
          match manifest.dependencies with
          | none => .ok fs1
          | some deps =>
            toggleDeps (fun p fsx => toggle_mod fuel p localDb enabled recursive fsx)
              deps localDb fs1
      else .ok fs1

/-- Configuration file of a mod path after a toggle run (junk `none` on
error or fuel exhaustion), used to state concrete toggle outcomes. -/
def configsAfter (r : TRes) (p : String) : Option (Option ModStubConfig) :=
  match r with
  | .ok fs => fs.configs p
  | _ => none

/-- The configuration at `p` exists, parses, and carries `enabled = e`. -/
def goodAt (p : String) (e : Bool) (fs : FS) : Prop :=
  ∃ c, fs.configs p = some (some c) ∧ c.enabled = e

/-- One dependency edge of the install root: `p`'s manifest parses, lists
a dependency that resolves in the database, and the resolved entry's
install path is `q`. -/
def Edge (M : ManifestMap) (localDb : LocalDatabase) (p q : String) : Prop :=
  ∃ m deps d lm, lookupManifest M p = some (some m) ∧
    m.dependencies = some deps ∧ d ∈ deps ∧
    get_mod localDb d = some lm ∧ lm.mod_path = q

/-- Reachability along dependency edges. -/
inductive Reaches (M : ManifestMap) (localDb : LocalDatabase) : String → String → Prop where
  | refl (p : String) : Reaches M localDb p p
  | head {p x q : String} : Edge M localDb p x → Reaches M localDb x q →
      Reaches M localDb p q

/-- What one toggle step preserves: the manifest and default-config
files (the code only ever writes `config.json` files), and every
configuration already set to the toggled value `e` (the code only ever
writes configurations whose `enabled` is `e`, except when materializing
a missing one — and a missing one is never `goodAt`). -/
def Pres (e : Bool) (a b : FS) : Prop :=
  b.manifests = a.manifests ∧ b.defaults = a.defaults ∧
    ∀ p, goodAt p e a → goodAt p e b

/-- The filesystem a toggle run produced, with a fallback for the
non-`ok` outcomes; used to state closed corollaries of toggle theorems. -/
def runFS (r : TRes) (fallback : FS) : FS :=
  match r with
  | .ok fs => fs
  | _ => fallback

/-! ### Concrete install roots used to settle the toggle claims -/

/-- Chain fixture: A depends on B, B depends on C, C and the sibling D
have no dependencies. -/
def chainDb : LocalDatabase :=
  [⟨"A", "mods/A"⟩, ⟨"B", "mods/B"⟩, ⟨"C", "mods/C"⟩, ⟨"D", "mods/D"⟩]

/-- Manifests of the chain fixture. -/
def chainManifests : ManifestMap :=
  [("mods/A", some ⟨"A", some ["B"]⟩), ("mods/B", some ⟨"B", some ["C"]⟩),
   ("mods/C", some ⟨"C", none⟩), ("mods/D", some ⟨"D", none⟩)]

/-- Install root of the chain fixture: every mod starts enabled. -/
def chainFS : FS :=
  { configs := fun p =>
      if p = "mods/A" ∨ p = "mods/B" ∨ p = "mods/C" ∨ p = "mods/D" then
        some (some ⟨true, none⟩)
      else none
    defaults := fun _ => none
    manifests := chainManifests }

/-- Cycle fixture: A depends on B and B depends on A. -/
def cycleDb : LocalDatabase := [⟨"A", "mods/A"⟩, ⟨"B", "mods/B"⟩]

/-- Manifests of the cycle fixture. -/
def cycleManifests : ManifestMap :=
  [("mods/A", some ⟨"A", some ["B"]⟩), ("mods/B", some ⟨"B", some ["A"]⟩)]

/-- Install root of the cycle fixture: both mods start enabled. -/
def cycleFS : FS :=
  { configs := fun p =>
      if p = "mods/A" ∨ p = "mods/B" then some (some ⟨true, none⟩) else none
    defaults := fun _ => none
    manifests := cycleManifests }

/-- Solo fixture: one mod with no dependencies and no `config.json` yet,
but a parseable `default-config.json`. -/
def soloDb : LocalDatabase := [⟨"X", "mods/X"⟩]

/-- Install root of the solo fixture. -/
def soloFS : FS :=
  { configs := fun _ => none
    defaults := fun p => if p = "mods/X" then some (some ⟨true, none⟩) else none
    manifests := [("mods/X", some ⟨"X", none⟩)] }

/-! ## Orchestrator commands (`owmods_gui/backend/src/commands.rs`)

The busy set `mods_in_progress` is a `Vec<String>`; the commands below
are modelled as sequential state transformers on it. The calls they make
into missing modules (`download.rs`, the confirmation dialog, the local
database lookup) are abstracted by their results, passed in as inputs;
event emission (`emit_all`) has no effect on the modelled state. -/

/-- `mark_mod_busy`: push the name, or retain every entry differing from
it (removing duplicates as well). -/
def mark_mod_busy (uniqueName : String) (busy : Bool)
    (modsInProgress : List String) : List String :=
  if busy then modsInProgress ++ [uniqueName]
  else modsInProgress.filter (fun m => m ≠ uniqueName)

/-- Result of one orchestrator command: the command's `Result`, the busy
set afterwards, and whether a download/install sequence was started. -/
structure CommandOutcome where
  result : Except Unit Unit
  modsInProgress : List String
  installStarted : Bool
deriving Repr

/-- The `install_mod` command: marks the mod busy, asks for confirmation
when the mod is already installed (declining returns `Ok` early), then
runs `install_mod_from_db` (abstracted by `installResult`) and unmarks
the mod busy only after a successful install. -/
def install_mod (uniqueName : String) (alreadyInstalled userConfirms : Bool)
    (installResult : Except Unit Unit)
    (modsInProgress : List String) : CommandOutcome :=
  let busy1 := mark_mod_busy uniqueName true modsInProgress
  if alreadyInstalled ∧ ¬ userConfirms then
    ⟨.ok (), busy1, false⟩
  else
    match installResult with
    | .error e => ⟨.error e, busy1, true⟩
    | .ok _ => ⟨.ok (), mark_mod_busy uniqueName false busy1, true⟩

/-- The `update_mod` command: marks the mod busy, runs the download
(either OWML or `install_mod_from_db`, abstracted by `installResult`) and
unmarks the mod busy only after success. -/
def update_mod (uniqueName : String) (installResult : Except Unit Unit)
    (modsInProgress : List String) : CommandOutcome :=
  let busy1 := mark_mod_busy uniqueName true modsInProgress
  match installResult with
  | .error e => ⟨.error e, busy1, true⟩
  | .ok _ => ⟨.ok (), mark_mod_busy uniqueName false busy1, true⟩

/-- Result of `update_all_mods`: the command's `Result`, the busy set
afterwards, and the filtered list of names actually attempted. -/
structure BatchOutcome where
  result : Except Unit Unit
  modsInProgress : List String
  attempted : List String
deriving Repr

/-- The `update_all_mods` command: filters out names already busy, adds
the remainder to the busy set in one critical section, runs
`install_mods_parallel` on them (abstracted by `installResult`), and on
success removes exactly the filtered names from the busy set. -/
def update_all_mods (uniqueNames : List String)
    (installResult : Except Unit Unit)
    (modsInProgress : List String) : BatchOutcome :=
  let filtered := uniqueNames.filter (fun m => ! modsInProgress.contains m)
  let busy1 := modsInProgress ++ filtered
  match installResult with
  | .error e => ⟨.error e, busy1, filtered⟩
  | .ok _ =>
    ⟨.ok (), busy1.filter (fun m => ! filtered.contains m), filtered⟩

/-! ## Log sessions (`clear_logs` in commands.rs) -/

/-- Modelled from the spec: the session's file sink (a `BufWriter` over
the session's log file, created in `run_game`) — the file it points at
and what has been written to it. -/
structure LogWriter where
  path : String
  written : List String
deriving DecidableEq, Repr

/-- Modelled from the spec: `write_log` (`game.rs` is not among the
provided sources) appends one message to the session's file sink. -/
def write_log (w : LogWriter) (msg : String) : LogWriter :=
  { w with written := w.written ++ [msg] }

/-- The `game_log` state: each port with an active session maps to that
session's in-memory message list and its file sink. -/
abbrev GameLogState := Nat → Option (List String × LogWriter)

/-- The `clear_logs` command: when the port has a session, empty its
in-memory message list in place (the writer is untouched) and emit a
`LOG-UPDATE` event (abstracted by `emitResult`, checked with `?`);
when the port has no session, do nothing and return `Ok`. -/
def clear_logs (port : Nat) (emitResult : Except Unit Unit)
    (st : GameLogState) : Except Unit Unit × GameLogState :=
  match st port with
  | some (_, w) =>
    (emitResult, fun q => if q = port then some ([], w) else st q)
  | none => (.ok (), st)

/-- A sample `game_log` state with one session on port 5. -/
def sampleLogState : GameLogState :=
  fun q => if q = 5 then some (["boom"], ⟨"log.txt", []⟩) else none

/-! ## Theorems -/

/-! ### Busy-set bookkeeping (claims C1, C2) -/

/-- C1: the claim says the unique names an operation adds to
`mods_in_progress` are removed on every exit path, including the path
where the user declines the reinstall confirmation and every error path.
The code violates this (and its own success-path discipline): declining
the reinstall dialog returns `Ok` with the name still busy, and every
`Err` return of `install_mod`, `update_mod` and `update_all_mods` leaves
the added names busy. This theorem evaluates the commands at those
failing inputs. -/
theorem busy_set_leaks_on_abort_and_error :
    ((install_mod "Xen.ModA" true false (.ok ()) []).result = .ok () ∧
      (install_mod "Xen.ModA" true false (.ok ()) []).modsInProgress
        = ["Xen.ModA"]) ∧
    (install_mod "Xen.ModA" false true (.error ()) []).modsInProgress
      = ["Xen.ModA"] ∧
    (update_mod "Xen.ModA" (.error ()) []).modsInProgress = ["Xen.ModA"] ∧
    (update_all_mods ["Xen.ModA"] (.error ()) []).modsInProgress
      = ["Xen.ModA"] := by
  refine ⟨⟨rfl, rfl⟩, rfl, rfl, rfl⟩

/-- C2 counterexample: the claim says a second install request for a
name already in the busy set is a no-op (no second download/extract
sequence). `install_mod` performs no busy-set check at all: requested
for a busy name it starts the install anyway (and pushes a duplicate
busy entry). -/
theorem install_mod_starts_despite_busy :
    (install_mod "Xen.ModA" false true (.ok ()) ["Xen.ModA"]).installStarted
      = true ∧
    mark_mod_busy "Xen.ModA" true ["Xen.ModA"] = ["Xen.ModA", "Xen.ModA"] := by
  exact ⟨rfl, rfl⟩

/-- Dropping the entries of `busy` from the request list does not change
which names survive the busy filter. -/
theorem filter_not_contains_drop_busy (names busy : List String) (m : String)
    (hm : m ∈ busy) :
    names.filter (fun x => ! busy.contains x) =
      (names.filter (fun x => x ≠ m)).filter (fun x => ! busy.contains x) := by
  rw [List.filter_filter]
  refine List.filter_congr ?_
  intro x _
  by_cases hxm : x = m
  · subst hxm
    have hc : busy.contains x = true := List.elem_eq_true_of_mem hm
    simp [hc, hm]
  · simp [hxm]

/-- C2 amended: only `update_all_mods` refuses busy names: it filters
out every unique name already in `mods_in_progress` before starting, so
requesting a busy name in the batch is a no-op and not an error — the
whole command behaves exactly as if the busy name had not been
requested. (`install_mod` performs no such check; see the
counterexample.) -/
theorem update_all_mods_busy_name_noop (names busy : List String)
    (m : String) (r : Except Unit Unit) (hm : m ∈ busy) :
    update_all_mods names r busy =
      update_all_mods (names.filter (fun x => x ≠ m)) r busy := by
  unfold update_all_mods
  rw [← filter_not_contains_drop_busy names busy m hm]

/-- Witness for C2's amended theorem at a concrete busy set. -/
theorem update_all_mods_busy_name_noop_witness :
    update_all_mods ["Xen.ModA", "Xen.ModB"] (.ok ()) ["Xen.ModA"] =
      update_all_mods (["Xen.ModA", "Xen.ModB"].filter (fun x => x ≠ "Xen.ModA"))
        (.ok ()) ["Xen.ModA"] :=
  update_all_mods_busy_name_noop _ _ _ _ (by decide)

/-! ### Log sessions (claim C10) -/

/-- C10: `clear_logs` on a port with an active session empties only that
session's in-memory message list: the session stays in the map with the
same (still-open) file sink, and every other port's session is left
unchanged; on a port with no session it is a no-op returning `Ok`. -/
theorem clear_logs_frame (port : Nat) (st : GameLogState)
    (emitR : Except Unit Unit) :
    (∀ lines w, st port = some (lines, w) →
      (clear_logs port emitR st).2 port = some ([], w) ∧
      ∀ q, q ≠ port → (clear_logs port emitR st).2 q = st q) ∧
    (st port = none → clear_logs port emitR st = (.ok (), st)) := by
  constructor
  · intro lines w h
    constructor
    · simp [clear_logs, h]
    · intro q hq
      simp [clear_logs, h, hq]
  · intro h
    simp [clear_logs, h]

/-- Witness for C10 at a concrete session map. -/
theorem clear_logs_frame_witness :
    (clear_logs 5 (.ok ()) sampleLogState).2 5 = some ([], ⟨"log.txt", []⟩) ∧
    (clear_logs 5 (.ok ()) sampleLogState).2 7 = sampleLogState 7 ∧
    clear_logs 9 (.ok ()) sampleLogState = (.ok (), sampleLogState) :=
  ⟨((clear_logs_frame 5 sampleLogState (.ok ())).1 ["boom"] ⟨"log.txt", []⟩ rfl).1,
    ((clear_logs_frame 5 sampleLogState (.ok ())).1 ["boom"] ⟨"log.txt", []⟩ rfl).2
      7 (by decide),
    (clear_logs_frame 9 sampleLogState (.ok ())).2 rfl⟩

/-! ### Progress protocol decoding (claim C6) -/

/-- `split_once` at the first separator: splitting `a ++ sep :: b` where
`a` is separator-free yields `(a, b)`. -/
theorem splitOnce_append (a b : List Char) (h : '|' ∉ a) :
    splitOnce '|' (a ++ '|' :: b) = some (a, b) := by
  induction a with
  | nil => simp [splitOnce]
  | cons c t ih =>
    have hc : c ≠ '|' := fun hcEq => h (hcEq ▸ List.mem_cons_self c t)
    have ht : '|' ∉ t := fun hmem => h (List.mem_cons_of_mem c hmem)
    simp [splitOnce, hc, ih ht]

/-- C6 counterexample: the claim says `ProgressPayload::parse` is total
and returns `Unknown` on every malformed line; in fact the code
`unwrap`s, so a line without the two leading `|` separators, or an
`Increment` line with a non-numeric progress field, panics (the doc
comment of `parse` itself says it panics on invalid lines). -/
theorem parse_panics_on_malformed_line :
    ProgressPayload.parse "Fetching Foo" = .error () ∧
    ProgressPayload.parse "Increment|dl1|abc" = .error () := by
  exact ⟨rfl, rfl⟩

/-- C6 amended: `parse` returns the explicit `Unknown` variant (rather
than failing) for every line that has the two leading `|`-delimited
fields but an unrecognized action tag; lines missing those separators or
with malformed numeric fields panic instead. -/
theorem parse_unrecognized_action_unknown (action id args : String)
    (ha : '|' ∉ action.data) (hi : '|' ∉ id.data)
    (hs : action ≠ "Start") (hinc : action ≠ "Increment")
    (hm : action ≠ "Msg") (hf : action ≠ "Finish") :
    ProgressPayload.parse (action ++ "|" ++ id ++ "|" ++ args) = .ok .Unknown := by
  have hdata : (action ++ "|" ++ id ++ "|" ++ args).data
      = action.data ++ '|' :: (id.data ++ '|' :: args.data) := by
    simp [String.data_append]
  have hs' : action.data ≠ "Start".data := fun hEq => hs (String.ext hEq)
  have hinc' : action.data ≠ "Increment".data := fun hEq => hinc (String.ext hEq)
  have hm' : action.data ≠ "Msg".data := fun hEq => hm (String.ext hEq)
  have hf' : action.data ≠ "Finish".data := fun hEq => hf (String.ext hEq)
  unfold ProgressPayload.parse
  rw [hdata]
  simp only [splitOnce_append _ _ ha, splitOnce_append _ _ hi]
  simp [hs', hinc', hm', hf']

/-- Witness for C6's amended theorem: an unrecognized action decodes to
`Unknown` even when the trailing field itself contains `|`. -/
theorem parse_unrecognized_action_unknown_witness :
    ('|' ∉ "Wibble".data) ∧ ('|' ∉ "dl1".data) ∧
    ("Wibble" : String) ≠ "Start" ∧ ("Wibble" : String) ≠ "Increment" ∧
    ("Wibble" : String) ≠ "Msg" ∧ ("Wibble" : String) ≠ "Finish" ∧
    ProgressPayload.parse ("Wibble" ++ "|" ++ "dl1" ++ "|" ++ "x|y") = .ok .Unknown :=
  ⟨by decide, by decide, by decide, by decide, by decide, by decide,
    parse_unrecognized_action_unknown "Wibble" "dl1" "x|y" (by decide) (by decide)
      (by decide) (by decide) (by decide) (by decide)⟩

/-! ### Progress bar lifecycle (claims C7, C8) -/

/-- `inc` never stores more than the declared length. -/
theorem inc_progress_le (bar : ProgressBar) (amount : Nat) :
    (bar.inc amount).1.progress ≤ bar.len := by
  unfold ProgressBar.inc
  dsimp only
  split
  · exact Nat.le_refl _
  · next h => exact Nat.le_of_lt (Nat.lt_of_not_le h)

/-- The event `inc` emits carries exactly the stored (clamped) value. -/
theorem inc_event_eq (bar : ProgressBar) (amount : Nat) :
    (bar.inc amount).2 = .increment bar.id (bar.inc amount).1.progress := rfl

/-- A call sequence never changes a bar's id, declared length or failure
message. -/
theorem runCalls_fields (bar : ProgressBar) (cs : List BarCall) :
    (runCalls bar cs).1.id = bar.id ∧ (runCalls bar cs).1.len = bar.len ∧
      (runCalls bar cs).1.failure_message = bar.failure_message := by
  induction cs generalizing bar with
  | nil => exact ⟨rfl, rfl, rfl⟩
  | cons c rest ih =>
    cases c with
    | inc a => exact ih _
    | setMsg m => exact ih _
    | finishCall s m => exact ih _

/-- The stored progress stays at most the declared length through any
call sequence. -/
theorem runCalls_progress_le (bar : ProgressBar) (cs : List BarCall)
    (h : bar.progress ≤ bar.len) :
    (runCalls bar cs).1.progress ≤ bar.len := by
  induction cs generalizing bar with
  | nil => exact h
  | cons c rest ih =>
    cases c with
    | inc a => exact ih _ (inc_progress_le bar a)
    | setMsg m => exact ih _ h
    | finishCall s m => exact ih _ h

/-- Every `Increment` event a call sequence emits is clamped to the
declared length. -/
theorem runCalls_increment_le (bar : ProgressBar) (cs : List BarCall) :
    ∀ i p, BarEvent.increment i p ∈ (runCalls bar cs).2 → p ≤ bar.len := by
  induction cs generalizing bar with
  | nil => intro i p hp; simp [runCalls] at hp
  | cons c rest ih =>
    intro i p hp
    cases c with
    | inc a =>
      have hp' : BarEvent.increment i p ∈
          [(bar.inc a).2] ++ (runCalls (bar.inc a).1 rest).2 := hp
      rcases List.mem_append.mp hp' with hmem | hmem
      · have h2 : BarEvent.increment i p
            = .increment bar.id ((bar.inc a).1.progress) :=
          List.mem_singleton.mp hmem
        injection h2 with h3 h4
        subst h4
        exact inc_progress_le bar a
      · exact ih (bar.inc a).1 i p hmem
    | setMsg m =>
      have hp' : BarEvent.increment i p ∈
          [bar.set_msg m] ++ (runCalls bar rest).2 := hp
      rcases List.mem_append.mp hp' with hmem | hmem
      · exact BarEvent.noConfusion (List.mem_singleton.mp hmem)
      · exact ih bar i p hmem
    | finishCall s m =>
      have hp' : BarEvent.increment i p ∈
          [(bar.finish s m).2] ++ (runCalls (bar.finish s m).1 rest).2 := hp
      rcases List.mem_append.mp hp' with hmem | hmem
      · exact BarEvent.noConfusion (List.mem_singleton.mp hmem)
      · exact ih (bar.finish s m).1 i p hmem

/-- C8: for every bar of declared length `len` and every call sequence
(with arbitrary `u32` increment amounts), the stored progress value and
the value carried by every emitted `Increment` event never exceed `len`;
in particular incrementing by 150 on a fresh bar of length 100 emits
progress 100. -/
theorem progress_never_exceeds_len (id : String) (len : Nat)
    (msg fmsg : String) (pt : ProgressType) (pa : ProgressAction)
    (calls : List BarCall) :
    (∀ i p, BarEvent.increment i p ∈ barTrace id len msg fmsg pt pa calls →
      p ≤ len) ∧
    (runCalls (ProgressBar.new id len msg fmsg pt pa).1 calls).1.progress ≤ len ∧
    (ProgressBar.inc ⟨"dl1", 100, 0, "failed", false⟩ 150).2
      = .increment "dl1" 100 := by
  refine ⟨?_, ?_, rfl⟩
  · intro i p hp
    have hp' : BarEvent.increment i p ∈
        BarEvent.start id len pt pa msg ::
          ((runCalls (ProgressBar.new id len msg fmsg pt pa).1 calls).2 ++
            (runCalls (ProgressBar.new id len msg fmsg pt pa).1 calls).1.dropBar) := hp
    rcases List.mem_cons.mp hp' with h1 | h1
    · exact BarEvent.noConfusion h1
    rcases List.mem_append.mp h1 with h2 | h2
    · exact runCalls_increment_le _ calls i p h2
    · unfold ProgressBar.dropBar at h2
      split at h2
      · simp at h2
      · exact BarEvent.noConfusion (List.mem_singleton.mp h2)
  · exact runCalls_progress_le _ calls (Nat.zero_le _)

/-- Appending call sequences composes state and concatenates events. -/
theorem runCalls_append (bar : ProgressBar) (cs ds : List BarCall) :
    runCalls bar (cs ++ ds)
      = ((runCalls (runCalls bar cs).1 ds).1,
          (runCalls bar cs).2 ++ (runCalls (runCalls bar cs).1 ds).2) := by
  induction cs generalizing bar with
  | nil => simp [runCalls]
  | cons c rest ih =>
    cases c with
    | inc a => simp [runCalls, ih]
    | setMsg m => simp [runCalls, ih]
    | finishCall s m => simp [runCalls, ih]

/-- A finish-free call sequence emits no `Finish` events and leaves the
completion flag unchanged. -/
theorem runCalls_no_finish (bar : ProgressBar) (cs : List BarCall)
    (h : countFinishCalls cs = 0) :
    countFinishEvents (runCalls bar cs).2 = 0 ∧
      (runCalls bar cs).1.complete = bar.complete := by
  induction cs generalizing bar with
  | nil => exact ⟨rfl, rfl⟩
  | cons c rest ih =>
    cases c with
    | inc a =>
      have h' : countFinishCalls rest = 0 := by
        simpa [countFinishCalls, List.filter_cons] using h
      have := ih (bar.inc a).1 h'
      refine ⟨?_, this.2⟩
      show countFinishEvents ([(bar.inc a).2] ++ (runCalls (bar.inc a).1 rest).2) = 0
      simp [countFinishEvents, List.filter_append, BarEvent.isFinish,
        inc_event_eq bar a]
      simpa [countFinishEvents] using this.1
    | setMsg m =>
      have h' : countFinishCalls rest = 0 := by
        simpa [countFinishCalls, List.filter_cons] using h
      have := ih bar h'
      refine ⟨?_, this.2⟩
      show countFinishEvents ([bar.set_msg m] ++ (runCalls bar rest).2) = 0
      simp [countFinishEvents, List.filter_append, BarEvent.isFinish,
        ProgressBar.set_msg]
      simpa [countFinishEvents] using this.1
    | finishCall s m =>
      exfalso
      simp [countFinishCalls, List.filter_cons] at h

/-- Witness for C8 at a concrete over-increment: the trace of a bar of
length 100 incremented by 150 contains the clamped `Increment` 100
event, and the theorem bounds it by 100. -/
theorem progress_never_exceeds_len_witness :
    (BarEvent.increment "dl1" 100 ∈
      barTrace "dl1" 100 "m" "f" .Definite .Download [.inc 150]) ∧
    (100 : Nat) ≤ 100 :=
  ⟨by decide,
    (progress_never_exceeds_len "dl1" 100 "m" "f" .Definite .Download
      [.inc 150]).1 "dl1" 100 (by decide)⟩

/-- The trace of a bar lifetime, unfolded. -/
theorem barTrace_eq (id : String) (len : Nat) (msg fmsg : String)
    (pt : ProgressType) (pa : ProgressAction) (calls : List BarCall) :
    barTrace id len msg fmsg pt pa calls
      = .start id len pt pa msg ::
        ((runCalls ⟨id, len, 0, fmsg, false⟩ calls).2 ++
          (runCalls ⟨id, len, 0, fmsg, false⟩ calls).1.dropBar) := rfl

/-- C7 counterexample: the claim says that for every sequence of
inc/set_msg/finish calls exactly one `Finish` event appears for the bar.
Calling `finish` twice emits two `Finish` events (nothing in the code
deduplicates them; `drop` is the only guarded emitter). -/
theorem double_finish_emits_two_events :
    countFinishEvents (barTrace "x" 10 "start" "failed" .Definite .Download
      [.finishCall true "a", .finishCall true "b"]) = 2 := rfl

/-- C7 amended: for a bar whose call sequence contains no `finish` call
except possibly as its last call, exactly one `Finish` event is emitted
and it is the last event of the bar's trace; when `finish` was called it
is that explicit event and drop emits nothing more, and when `finish`
was never called the drop emits exactly one `Finish` with
`success = false` (carrying the bar's failure message). -/
theorem finish_event_once_and_last (id : String) (len : Nat)
    (msg fmsg : String) (pt : ProgressType) (pa : ProgressAction)
    (calls : List BarCall)
    (h : countFinishCalls calls.dropLast = 0) :
    countFinishEvents (barTrace id len msg fmsg pt pa calls) = 1 ∧
    (∃ e, (barTrace id len msg fmsg pt pa calls).getLast? = some e ∧
      e.isFinish = true) ∧
    (countFinishCalls calls = 0 →
      (barTrace id len msg fmsg pt pa calls).getLast?
        = some (.finish id false fmsg)) := by
  by_cases hall : countFinishCalls calls = 0
  · obtain ⟨hf, hcomp⟩ :=
      runCalls_no_finish (⟨id, len, 0, fmsg, false⟩ : ProgressBar) calls hall
    obtain ⟨hid, -, hfm⟩ :=
      runCalls_fields (⟨id, len, 0, fmsg, false⟩ : ProgressBar) calls
    have hcomp' :
        (runCalls (⟨id, len, 0, fmsg, false⟩ : ProgressBar) calls).1.complete
          = false := hcomp
    have hfe :
        (runCalls (⟨id, len, 0, fmsg, false⟩ : ProgressBar) calls).2.filter
          BarEvent.isFinish = [] := List.length_eq_zero.mp hf
    have hdrop :
        (runCalls (⟨id, len, 0, fmsg, false⟩ : ProgressBar) calls).1.dropBar
          = [.finish id false fmsg] := by
      simp [ProgressBar.dropBar, hcomp', ProgressBar.finish, hid, hfm]
    refine ⟨?_, ⟨.finish id false fmsg, ?_, rfl⟩, fun _ => ?_⟩
    · rw [barTrace_eq, hdrop]
      simp [countFinishEvents, List.filter_append, List.filter_cons,
        BarEvent.isFinish, hfe]
    · rw [barTrace_eq, hdrop, ← List.cons_append, List.getLast?_concat]
    · rw [barTrace_eq, hdrop, ← List.cons_append, List.getLast?_concat]
  · rcases List.eq_nil_or_concat calls with rfl | ⟨cs, c, rfl⟩
    · exact absurd rfl hall
    · rw [List.concat_eq_append] at h hall ⊢
      rw [List.dropLast_concat] at h
      cases c with
      | inc a =>
        exfalso
        exact hall (by simpa [countFinishCalls, List.filter_append,
          List.filter_cons] using h)
      | setMsg m =>
        exfalso
        exact hall (by simpa [countFinishCalls, List.filter_append,
          List.filter_cons] using h)
      | finishCall s m =>
        obtain ⟨hf, hcomp⟩ :=
          runCalls_no_finish (⟨id, len, 0, fmsg, false⟩ : ProgressBar) cs h
        obtain ⟨hid, -, hfm⟩ :=
          runCalls_fields (⟨id, len, 0, fmsg, false⟩ : ProgressBar) cs
        have hfe :
            (runCalls (⟨id, len, 0, fmsg, false⟩ : ProgressBar) cs).2.filter
              BarEvent.isFinish = [] := List.length_eq_zero.mp hf
        have hev :
            ((runCalls (⟨id, len, 0, fmsg, false⟩ : ProgressBar) cs).1.finish
              s m).2 = .finish id s (if s then m else fmsg) := by
          simp [ProgressBar.finish, hid, hfm]
        have hT : barTrace id len msg fmsg pt pa (cs ++ [.finishCall s m])
            = (.start id len pt pa msg ::
                (runCalls (⟨id, len, 0, fmsg, false⟩ : ProgressBar) cs).2) ++
              [.finish id s (if s then m else fmsg)] := by
          rw [barTrace_eq, runCalls_append]
          show BarEvent.start id len pt pa msg ::
            ((runCalls (⟨id, len, 0, fmsg, false⟩ : ProgressBar) cs).2 ++
              ([((runCalls (⟨id, len, 0, fmsg, false⟩ : ProgressBar) cs).1.finish
                  s m).2] ++ []) ++
              (if true then ([] : List BarEvent) else _)) = _
          simp [hev]
        refine ⟨?_, ⟨.finish id s (if s then m else fmsg), ?_, rfl⟩, fun h' => ?_⟩
        · rw [hT]
          simp [countFinishEvents, List.filter_append, List.filter_cons,
            BarEvent.isFinish, hfe]
        · rw [hT, List.getLast?_concat]
        · exact absurd h' hall

/-- Witness for C7's amended theorem: a bar incremented once and dropped
without an explicit finish emits exactly one `Finish(success=false)` as
its last event. -/
theorem finish_event_once_and_last_witness :
    countFinishCalls ([BarCall.inc 3] : List BarCall).dropLast = 0 ∧
    countFinishEvents (barTrace "x" 10 "m" "f" .Definite .Download
      [.inc 3]) = 1 ∧
    (barTrace "x" 10 "m" "f" .Definite .Download [.inc 3]).getLast?
      = some (.finish "x" false "f") :=
  ⟨rfl,
    (finish_event_once_and_last "x" 10 "m" "f" .Definite .Download
      [.inc 3] (by decide)).1,
    (finish_event_once_and_last "x" 10 "m" "f" .Definite .Download
      [.inc 3] (by decide)).2.2 (by decide)⟩

/-! ### Toggle engine (claims C3, C4, C5, C9) -/

/-- `Pres` is reflexive. -/
theorem pres_refl (e : Bool) (fs : FS) : Pres e fs fs :=
  ⟨rfl, rfl, fun _ h => h⟩

/-- `Pres` is transitive. -/
theorem pres_trans {e : Bool} {a b c : FS} (h1 : Pres e a b)
    (h2 : Pres e b c) : Pres e a c :=
  ⟨h2.1.trans h1.1, h2.2.1.trans h1.2.1, fun p hp => h2.2.2 p (h1.2.2 p hp)⟩

/-- Writing a configuration whose `enabled` is the toggled value
preserves `Pres`-tracked state. -/
theorem writeConfig_pres (e : Bool) (fs : FS) (p : String)
    (c : ModStubConfig) (hc : c.enabled = e) :
    Pres e fs (fs.writeConfig p c) := by
  refine ⟨rfl, rfl, fun q hq => ?_⟩
  by_cases hpq : q = p
  · exact ⟨c, by simp [FS.writeConfig, hpq], hc⟩
  · obtain ⟨c0, hc0, he0⟩ := hq
    exact ⟨c0, by simp [FS.writeConfig, hpq]; exact hc0, he0⟩

/-- Materializing a configuration where none existed preserves
`Pres`-tracked state (no existing `goodAt` fact can be at that path). -/
theorem writeConfig_pres_fresh (e : Bool) (fs : FS) (p : String)
    (c : ModStubConfig) (hnone : fs.configs p = none) :
    Pres e fs (fs.writeConfig p c) := by
  refine ⟨rfl, rfl, fun q hq => ?_⟩
  obtain ⟨c0, hc0, he0⟩ := hq
  by_cases hpq : q = p
  · rw [hpq, hnone] at hc0
    exact Option.noConfusion hc0
  · exact ⟨c0, by simp [FS.writeConfig, hpq]; exact hc0, he0⟩

/-- The dependency loop preserves whatever each step preserves. -/
theorem toggleDeps_pres (e : Bool) (step : String → FS → TRes)
    (hstep : ∀ q a b, step q a = .ok b → Pres e a b) :
    ∀ (deps : List String) (localDb : LocalDatabase) (fs fs' : FS),
      toggleDeps step deps localDb fs = .ok fs' → Pres e fs fs' := by
  intro deps
  induction deps with
  | nil =>
    intro db fs fs' h
    simp only [toggleDeps, TRes.ok.injEq] at h
    exact h ▸ pres_refl e fs
  | cons d rest ih =>
    intro db fs fs' h
    simp only [toggleDeps] at h
    cases hg : get_mod db d with
    | none =>
      simp only [hg] at h
      exact ih db fs fs' h
    | some dm =>
      simp only [hg] at h
      cases hs : step dm.mod_path fs with
      | ok fs1 =>
        simp only [hs] at h
        exact pres_trans (hstep _ _ _ hs) (ih db fs1 fs' h)
      | err => simp only [hs] at h; exact TRes.noConfusion h
      | diverge => simp only [hs] at h; exact TRes.noConfusion h

/-- Materializing a missing configuration preserves `Pres`-tracked
state. -/
theorem copy_default_pres (e : Bool) (fs : FS) (p : String) (fs1 : FS)
    (hnone : fs.configs p = none)
    (h : copy_default_config p fs = .ok fs1) : Pres e fs fs1 := by
  unfold copy_default_config at h
  cases hdef : fs.defaults p with
  | none => simp [hdef] at h
  | some oc =>
    cases oc with
    | none => simp [hdef] at h
    | some conf =>
      simp only [hdef, Except.ok.injEq] at h
      exact h ▸ writeConfig_pres_fresh e fs p conf hnone

/-- One toggle run preserves `Pres`-tracked state: it never touches
manifest or default-config files, and every configuration it writes for
good carries the toggled value. -/
theorem toggle_mod_pres (fuel : Nat) :
    ∀ (p : String) (localDb : LocalDatabase) (e r : Bool) (fs fs' : FS),
      toggle_mod fuel p localDb e r fs = .ok fs' → Pres e fs fs' := by
  induction fuel with
  | zero =>
    intro p db e r fs fs' h
    simp [toggle_mod] at h
  | succ n ih =>
    intro p db e r fs fs' h
    simp only [toggle_mod] at h
    cases hcfg : fs.configs p with
    | some oc =>
      cases oc with
      | some conf =>
        simp only [hcfg] at h
        have hw : Pres e fs (fs.writeConfig p { conf with enabled := e }) :=
          writeConfig_pres e fs p _ rfl
        cases r with
        | false =>
          simp at h
          exact h ▸ hw
        | true =>
          cases hrm : read_local_mod p (fs.writeConfig p { conf with enabled := e }) with
          | error u => simp [hrm] at h
          | ok man =>
            simp only [hrm] at h
            cases hdeps : man.dependencies with
            | none =>
              simp [hdeps] at h
              exact h ▸ hw
            | some deps =>
              simp only [hdeps, if_true] at h
              exact pres_trans hw
                (toggleDeps_pres e _ (fun q a b hq => ih q db e true a b hq)
                  deps db _ fs' h)
      | none => simp [hcfg] at h
    | none =>
      simp only [hcfg] at h
      cases hcd : copy_default_config p fs with
      | error u => simp [hcd] at h
      | ok fs1 =>
        simp only [hcd] at h
        have hbase : Pres e fs fs1 := copy_default_pres e fs p fs1 hcfg hcd
        cases hrec : toggle_mod n p db e r fs1 with
        | err => simp [hrec] at h
        | diverge => simp [hrec] at h
        | ok fs2 =>
          simp only [hrec] at h
          have hmid : Pres e fs fs2 :=
            pres_trans hbase (ih p db e r fs1 fs2 hrec)
          cases r with
          | false =>
            simp at h
            exact h ▸ hmid
          | true =>
            cases hrm : read_local_mod p fs2 with
            | error u => simp [hrm] at h
            | ok man =>
              simp only [hrm] at h
              cases hdeps : man.dependencies with
              | none =>
                simp [hdeps] at h
                exact h ▸ hmid
              | some deps =>
                simp only [hdeps, if_true] at h
                exact pres_trans hmid
                  (toggleDeps_pres e _ (fun q a b hq => ih q db e true a b hq)
                    deps db fs2 fs' h)

/-- A successful toggle leaves the toggled mod's own configuration
present, parsed, and carrying the requested `enabled` value. -/
theorem toggle_mod_sets (fuel : Nat) :
    ∀ (p : String) (localDb : LocalDatabase) (e r : Bool) (fs fs' : FS),
      toggle_mod fuel p localDb e r fs = .ok fs' → goodAt p e fs' := by
  induction fuel with
  | zero =>
    intro p db e r fs fs' h
    simp [toggle_mod] at h
  | succ n ih =>
    intro p db e r fs fs' h
    simp only [toggle_mod] at h
    cases hcfg : fs.configs p with
    | some oc =>
      cases oc with
      | some conf =>
        simp only [hcfg] at h
        have hg1 : goodAt p e (fs.writeConfig p { conf with enabled := e }) :=
          ⟨{ conf with enabled := e }, by simp [FS.writeConfig], rfl⟩
        cases r with
        | false =>
          simp at h
          exact h ▸ hg1
        | true =>
          cases hrm : read_local_mod p (fs.writeConfig p { conf with enabled := e }) with
          | error u => simp [hrm] at h
          | ok man =>
            simp only [hrm] at h
            cases hdeps : man.dependencies with
            | none =>
              simp [hdeps] at h
              exact h ▸ hg1
            | some deps =>
              simp only [hdeps, if_true] at h
              exact (toggleDeps_pres e _
                (fun q a b hq => toggle_mod_pres n q db e true a b hq)
                deps db _ fs' h).2.2 p hg1
      | none => simp [hcfg] at h
    | none =>
      simp only [hcfg] at h
      cases hcd : copy_default_config p fs with
      | error u => simp [hcd] at h
      | ok fs1 =>
        simp only [hcd] at h
        cases hrec : toggle_mod n p db e r fs1 with
        | err => simp [hrec] at h
        | diverge => simp [hrec] at h
        | ok fs2 =>
          simp only [hrec] at h
          have hg2 : goodAt p e fs2 := ih p db e r fs1 fs2 hrec
          cases r with
          | false =>
            simp at h
            exact h ▸ hg2
          | true =>
            cases hrm : read_local_mod p fs2 with
            | error u => simp [hrm] at h
            | ok man =>
              simp only [hrm] at h
              cases hdeps : man.dependencies with
              | none =>
                simp [hdeps] at h
                exact h ▸ hg2
              | some deps =>
                simp only [hdeps, if_true] at h
                exact (toggleDeps_pres e _
                  (fun q a b hq => toggle_mod_pres n q db e true a b hq)
                  deps db fs2 fs' h).2.2 p hg2

/-- A successful manifest read pins down the manifest file's content. -/
theorem read_local_mod_eq {p : String} {fs : FS} {man : Manifest}
    (h : read_local_mod p fs = .ok man) :
    lookupManifest fs.manifests p = some (some man) := by
  unfold read_local_mod at h
  cases hlm : lookupManifest fs.manifests p with
  | none => simp [hlm] at h
  | some om =>
    cases om with
    | none => simp [hlm] at h
    | some m =>
      simp only [hlm, Except.ok.injEq] at h
      subst h
      rfl

/-- Every resolvable dependency the (successful) loop visits was toggled
at some intermediate state, and the loop's remainder preserves what that
toggle established. -/
theorem toggleDeps_mem (e : Bool) (step : String → FS → TRes)
    (hstep : ∀ q a b, step q a = .ok b → Pres e a b) :
    ∀ (deps : List String) (localDb : LocalDatabase) (fs fs' : FS),
      toggleDeps step deps localDb fs = .ok fs' →
      ∀ d ∈ deps, ∀ lm, get_mod localDb d = some lm →
        ∃ fsI fsI', step lm.mod_path fsI = .ok fsI' ∧ Pres e fs fsI ∧
          Pres e fsI' fs' := by
  intro deps
  induction deps with
  | nil =>
    intro db fs fs' h d hd
    exact absurd hd (List.not_mem_nil d)
  | cons d0 rest ih =>
    intro db fs fs' h d hd lm hlm
    simp only [toggleDeps] at h
    rcases List.mem_cons.mp hd with rfl | hdr
    · simp only [hlm] at h
      cases hs : step lm.mod_path fs with
      | ok fs1 =>
        simp only [hs] at h
        exact ⟨fs, fs1, hs, pres_refl e fs,
          toggleDeps_pres e step hstep rest db fs1 fs' h⟩
      | err => simp only [hs] at h; exact TRes.noConfusion h
      | diverge => simp only [hs] at h; exact TRes.noConfusion h
    · cases hg : get_mod db d0 with
      | none =>
        simp only [hg] at h
        exact ih db fs fs' h d hdr lm hlm
      | some dm0 =>
        simp only [hg] at h
        cases hs : step dm0.mod_path fs with
        | ok fs1 =>
          simp only [hs] at h
          obtain ⟨fsI, fsI', h1, h2, h3⟩ := ih db fs1 fs' h d hdr lm hlm
          exact ⟨fsI, fsI', h1, pres_trans (hstep _ _ _ hs) h2, h3⟩
        | err => simp only [hs] at h; exact TRes.noConfusion h
        | diverge => simp only [hs] at h; exact TRes.noConfusion h

/-- Reachability extends along an edge at its far end. -/
theorem reaches_snoc {M : ManifestMap} {localDb : LocalDatabase}
    {a b c : String} (h : Reaches M localDb a b)
    (he : Edge M localDb b c) : Reaches M localDb a c := by
  induction h with
  | refl p => exact Reaches.head he (Reaches.refl c)
  | head hx hr ih => exact Reaches.head hx (ih he)

/-- A successful recursive toggle sets the requested `enabled` value on
every mod reachable from the toggled one along dependency edges: the
`recursive` flag is passed through to each dependency's own toggle. -/
theorem toggle_propagates (fuel : Nat) :
    ∀ (p : String) (localDb : LocalDatabase) (e : Bool) (fs fs' : FS),
      toggle_mod fuel p localDb e true fs = .ok fs' →
      ∀ q, Reaches fs.manifests localDb p q → goodAt q e fs' := by
  induction fuel with
  | zero =>
    intro p db e fs fs' h
    simp [toggle_mod] at h
  | succ n ih =>
    intro p db e fs fs' h q hreach
    simp only [toggle_mod] at h
    cases hcfg : fs.configs p with
    | some oc =>
      cases oc with
      | some conf =>
        simp only [hcfg] at h
        cases hrm : read_local_mod p (fs.writeConfig p { conf with enabled := e }) with
        | error u => simp [hrm] at h
        | ok man =>
          simp only [hrm] at h
          have hman : lookupManifest fs.manifests p = some (some man) :=
            read_local_mod_eq hrm
          have hg1 : goodAt p e (fs.writeConfig p { conf with enabled := e }) :=
            ⟨{ conf with enabled := e }, by simp [FS.writeConfig], rfl⟩
          cases hdeps : man.dependencies with
          | none =>
            simp [hdeps] at h
            cases hreach with
            | refl => exact h ▸ hg1
            | head he hr =>
              obtain ⟨m, deps', d, lm, hm, hd, hdm, hgm, hqm⟩ := he
              rw [hman] at hm
              injection hm with hm
              injection hm with hm
              rw [← hm, hdeps] at hd
              exact Option.noConfusion hd
          | some deps =>
            simp only [hdeps, if_true] at h
            have hstep : ∀ q1 a b,
                toggle_mod n q1 db e true a = .ok b → Pres e a b :=
              fun q1 a b hq => toggle_mod_pres n q1 db e true a b hq
            cases hreach with
            | refl =>
              exact (toggleDeps_pres e _ hstep deps db _ fs' h).2.2 p hg1
            | head he hr =>
              obtain ⟨m, deps', d, lm, hm, hd, hdm, hgm, hqm⟩ := he
              rw [hman] at hm
              injection hm with hm
              injection hm with hm
              rw [← hm, hdeps] at hd
              injection hd with hd
              subst hd
              obtain ⟨fsI, fsI', hok, hin, hout⟩ :=
                toggleDeps_mem e _ hstep deps db _ fs' h d hdm lm hgm
              have hreachI : Reaches fsI.manifests db lm.mod_path q := by
                have hmeq : fsI.manifests = fs.manifests := hin.1
                rw [hmeq]
                exact hqm ▸ hr
              exact hout.2.2 q (ih lm.mod_path db e fsI fsI' hok q hreachI)
      | none => simp [hcfg] at h
    | none =>
      simp only [hcfg] at h
      cases hcd : copy_default_config p fs with
      | error u => simp [hcd] at h
      | ok fs1 =>
        simp only [hcd] at h
        have hbase : Pres e fs fs1 := copy_default_pres e fs p fs1 hcfg hcd
        cases hrec : toggle_mod n p db e true fs1 with
        | err => simp [hrec] at h
        | diverge => simp [hrec] at h
        | ok fs2 =>
          simp only [hrec] at h
          have hreach1 : Reaches fs1.manifests db p q := by
            rw [hbase.1]
            exact hreach
          have hg2 : goodAt q e fs2 := ih p db e fs1 fs2 hrec q hreach1
          cases hrm : read_local_mod p fs2 with
          | error u => simp [hrm] at h
          | ok man =>
            simp only [hrm] at h
            cases hdeps : man.dependencies with
            | none =>
              simp [hdeps] at h
              exact h ▸ hg2
            | some deps =>
              simp only [hdeps, if_true] at h
              exact (toggleDeps_pres e _
                (fun q1 a b hq => toggle_mod_pres n q1 db e true a b hq)
                deps db fs2 fs' h).2.2 q hg2

/-- Materializing a configuration leaves a parsed `config.json` behind. -/
theorem copy_default_writes {p : String} {fs fs1 : FS}
    (h : copy_default_config p fs = .ok fs1) :
    ∃ conf, fs1.configs p = some (some conf) := by
  unfold copy_default_config at h
  cases hdef : fs.defaults p with
  | none => simp [hdef] at h
  | some oc =>
    cases oc with
    | none => simp [hdef] at h
    | some conf =>
      simp only [hdef, Except.ok.injEq] at h
      exact ⟨conf, by rw [← h]; simp [FS.writeConfig]⟩

/-- The dependency loop cannot exhaust fuel if no resolvable dependency's
step can, over any filesystem with the fixed manifest files. -/
theorem toggleDeps_nondiverge (step : String → FS → TRes) (M : ManifestMap)
    (hpres : ∀ q a b, step q a = .ok b → a.manifests = b.manifests) :
    ∀ (deps : List String) (localDb : LocalDatabase) (fs : FS),
      fs.manifests = M →
      (∀ d ∈ deps, ∀ lm, get_mod localDb d = some lm →
        ∀ fsx : FS, fsx.manifests = M → step lm.mod_path fsx ≠ .diverge) →
      toggleDeps step deps localDb fs ≠ .diverge := by
  intro deps
  induction deps with
  | nil =>
    intro db fs hfs hstep h
    simp [toggleDeps] at h
  | cons d rest ih =>
    intro db fs hfs hstep h
    simp only [toggleDeps] at h
    cases hg : get_mod db d with
    | none =>
      simp only [hg] at h
      exact ih db fs hfs
        (fun d' hd' => hstep d' (List.mem_cons_of_mem d hd')) h
    | some lm =>
      simp only [hg] at h
      cases hs : step lm.mod_path fs with
      | ok fs1 =>
        simp only [hs] at h
        exact ih db fs1 ((hpres _ _ _ hs).symm.trans hfs)
          (fun d' hd' => hstep d' (List.mem_cons_of_mem d hd')) h
      | err => simp only [hs] at h; exact TRes.noConfusion h
      | diverge =>
        exact hstep d (List.mem_cons_self d rest) lm hg fs hfs hs

/-- Fuel bound for recursive toggles over an install root whose
dependency graph, restricted to what is reachable from the start mod, is
ranked (hence acyclic): `2 * rank + 2` frames suffice, and one frame
less when the mod's configuration already exists. -/
theorem toggle_nondiverge_aux (M : ManifestMap) (localDb : LocalDatabase)
    (e : Bool) (rank : String → Nat) (p0 : String)
    (hrank : ∀ x y, Reaches M localDb p0 x → Edge M localDb x y →
      rank y < rank x) :
    ∀ (fuel : Nat) (p : String) (fs : FS), fs.manifests = M →
      Reaches M localDb p0 p →
      (2 * rank p + 2 ≤ fuel →
        toggle_mod fuel p localDb e true fs ≠ .diverge) ∧
      (fs.configs p ≠ none → 2 * rank p + 1 ≤ fuel →
        toggle_mod fuel p localDb e true fs ≠ .diverge) := by
  intro fuel
  induction fuel with
  | zero =>
    intro p fs hfs hre
    exact ⟨fun hx => absurd hx (by omega), fun _ hx => absurd hx (by omega)⟩
  | succ n ih =>
    intro p fs hfs hre
    have hstepPres : ∀ q a b,
        toggle_mod n q localDb e true a = .ok b →
          a.manifests = b.manifests :=
      fun q a b hab => (toggle_mod_pres n q localDb e true a b hab).1.symm
    have hconf : ∀ fs1 : FS, fs1.manifests = M → fs1.configs p ≠ none →
        2 * rank p + 1 ≤ n + 1 →
        toggle_mod (n + 1) p localDb e true fs1 ≠ .diverge := by
      intro fs1 hm1 hne hfuel h
      simp only [toggle_mod] at h
      cases hcfg : fs1.configs p with
      | none => exact hne hcfg
      | some oc =>
        cases oc with
        | none => simp only [hcfg] at h; exact TRes.noConfusion h
        | some conf =>
          simp only [hcfg] at h
          cases hrm : read_local_mod p
              (fs1.writeConfig p { conf with enabled := e }) with
          | error u => simp [hrm] at h
          | ok man =>
            simp only [hrm] at h
            have hman : lookupManifest M p = some (some man) := by
              have hx : lookupManifest fs1.manifests p = some (some man) :=
                read_local_mod_eq hrm
              rw [← hm1]
              exact hx
            cases hdeps : man.dependencies with
            | none => simp [hdeps] at h
            | some deps =>
              simp only [hdeps, if_true] at h
              refine toggleDeps_nondiverge _ M hstepPres deps localDb
                (fs1.writeConfig p { conf with enabled := e }) hm1 ?_ h
              intro d hd lm hlm fsx hfsx
              have hedge : Edge M localDb p lm.mod_path :=
                ⟨man, deps, d, lm, hman, hdeps, hd, hlm, rfl⟩
              have hre2 : Reaches M localDb p0 lm.mod_path :=
                reaches_snoc hre hedge
              have hlt : rank lm.mod_path < rank p := hrank p _ hre hedge
              exact (ih lm.mod_path fsx hfsx hre2).1 (by omega)
    constructor
    · intro hfuel
      cases hcfg : fs.configs p with
      | some oc =>
        exact hconf fs hfs (by rw [hcfg]; exact fun hx => Option.noConfusion hx)
          (by omega)
      | none =>
        intro h
        simp only [toggle_mod, hcfg] at h
        cases hcd : copy_default_config p fs with
        | error u => simp [hcd] at h
        | ok fs1 =>
          simp only [hcd] at h
          have hP : Pres e fs fs1 := copy_default_pres e fs p fs1 hcfg hcd
          have hm1 : fs1.manifests = M := hP.1.trans hfs
          obtain ⟨conf1, hconf1⟩ := copy_default_writes hcd
          have hne1 : fs1.configs p ≠ none := by
            rw [hconf1]; exact fun hx => Option.noConfusion hx
          cases hrec : toggle_mod n p localDb e true fs1 with
          | err => simp only [hrec] at h; exact TRes.noConfusion h
          | diverge =>
            exact (ih p fs1 hm1 hre).2 hne1 (by omega) hrec
          | ok fs2 =>
            simp only [hrec] at h
            have hm2 : fs2.manifests = M :=
              ((toggle_mod_pres n p localDb e true fs1 fs2 hrec).1).trans hm1
            cases hrm : read_local_mod p fs2 with
            | error u => simp [hrm] at h
            | ok man =>
              simp only [hrm] at h
              have hman : lookupManifest M p = some (some man) := by
                have hx : lookupManifest fs2.manifests p = some (some man) :=
                  read_local_mod_eq hrm
                rw [← hm2]
                exact hx
              cases hdeps : man.dependencies with
              | none => simp [hdeps] at h
              | some deps =>
                simp only [hdeps, if_true] at h
                refine toggleDeps_nondiverge _ M hstepPres deps localDb _
                  hm2 ?_ h
                intro d hd lm hlm fsx hfsx
                have hedge : Edge M localDb p lm.mod_path :=
                  ⟨man, deps, d, lm, hman, hdeps, hd, hlm, rfl⟩
                have hre2 : Reaches M localDb p0 lm.mod_path :=
                  reaches_snoc hre hedge
                have hlt : rank lm.mod_path < rank p := hrank p _ hre hedge
                exact (ih lm.mod_path fsx hfsx hre2).1 (by omega)
    · intro hne hfuel
      exact hconf fs hfs hne hfuel

/-- On the two-mod cycle fixture, a recursive toggle exhausts any fuel:
the recursion A → B → A → … never bottoms out. -/
theorem cycle_toggle_diverges :
    ∀ (fuel : Nat) (e : Bool) (fs : FS), fs.manifests = cycleManifests →
      (∃ ca, fs.configs "mods/A" = some (some ca)) →
      (∃ cb, fs.configs "mods/B" = some (some cb)) →
      toggle_mod fuel "mods/A" cycleDb e true fs = .diverge ∧
      toggle_mod fuel "mods/B" cycleDb e true fs = .diverge := by
  intro fuel
  induction fuel with
  | zero => intro e fs _ _ _; exact ⟨rfl, rfl⟩
  | succ n ih =>
    intro e fs hm hA hB
    obtain ⟨ca, hca⟩ := hA
    obtain ⟨cb, hcb⟩ := hB
    constructor
    · simp only [toggle_mod, hca]
      have hrm : read_local_mod "mods/A"
          (fs.writeConfig "mods/A" { ca with enabled := e })
            = .ok ⟨"A", some ["B"]⟩ := by
        have hlm : lookupManifest
            (fs.writeConfig "mods/A" { ca with enabled := e }).manifests
              "mods/A" = some (some ⟨"A", some ["B"]⟩) := by
          rw [show (fs.writeConfig "mods/A" { ca with enabled := e }).manifests
              = fs.manifests from rfl, hm]
          exact rfl
        unfold read_local_mod
        rw [hlm]
      rw [hrm]
      have hget : get_mod cycleDb "B" = some ⟨"B", "mods/B"⟩ := rfl
      have hbdiv : toggle_mod n "mods/B" cycleDb e true
          (fs.writeConfig "mods/A" { ca with enabled := e }) = .diverge := by
        refine (ih e (fs.writeConfig "mods/A" { ca with enabled := e })
          hm ⟨{ ca with enabled := e }, ?_⟩ ⟨cb, ?_⟩).2
        · simp [FS.writeConfig]
        · simp only [FS.writeConfig]
          rw [if_neg (by decide)]
          exact hcb
      simp only [toggleDeps, hget, hbdiv, if_true]
    · simp only [toggle_mod, hcb]
      have hrm : read_local_mod "mods/B"
          (fs.writeConfig "mods/B" { cb with enabled := e })
            = .ok ⟨"B", some ["A"]⟩ := by
        have hlm : lookupManifest
            (fs.writeConfig "mods/B" { cb with enabled := e }).manifests
              "mods/B" = some (some ⟨"B", some ["A"]⟩) := by
          rw [show (fs.writeConfig "mods/B" { cb with enabled := e }).manifests
              = fs.manifests from rfl, hm]
          exact rfl
        unfold read_local_mod
        rw [hlm]
      rw [hrm]
      have hget : get_mod cycleDb "A" = some ⟨"A", "mods/A"⟩ := rfl
      have hadiv : toggle_mod n "mods/A" cycleDb e true
          (fs.writeConfig "mods/B" { cb with enabled := e }) = .diverge := by
        refine (ih e (fs.writeConfig "mods/B" { cb with enabled := e })
          hm ⟨ca, ?_⟩ ⟨{ cb with enabled := e }, ?_⟩).1
        · simp only [FS.writeConfig]
          rw [if_neg (by decide)]
          exact hca
        · simp [FS.writeConfig]
      simp only [toggleDeps, hget, hadiv, if_true]

/-- C9: after `toggle_mod` succeeds with `enabled = e` on a mod path,
`get_mod_enabled` on that path returns `Ok e`; this covers both the case
of a pre-existing `config.json` and the fresh case where the
configuration is first materialized from `default-config.json`. -/
theorem toggle_then_get_enabled_round_trip (fuel : Nat) (p : String)
    (localDb : LocalDatabase) (e r : Bool) (fs fs' : FS)
    (h : toggle_mod fuel p localDb e r fs = .ok fs') :
    get_mod_enabled p fs' = .ok e := by
  obtain ⟨c, hc, he⟩ := toggle_mod_sets fuel p localDb e r fs fs' h
  simp [get_mod_enabled, hc, he]

/-- Witness for C9 in the fresh case: the solo fixture has no
`config.json`, only a default one, and the round trip still holds. -/
theorem toggle_then_get_enabled_round_trip_witness :
    get_mod_enabled "mods/X"
      (runFS (toggle_mod 2 "mods/X" soloDb false false soloFS) soloFS)
        = .ok false :=
  toggle_then_get_enabled_round_trip 2 "mods/X" soloDb false false soloFS _ rfl

/-- C4: on the concrete chain fixture (A depends on B depends on C, with
sibling D unrelated and everything enabled), `toggle_mod` on A with
`enabled = false, recursive = true` succeeds and leaves A, B and C with
persisted `enabled = false` while D's configuration file is exactly what
it was. -/
theorem chain_toggle_disables_a_b_c_not_d :
    configsAfter (toggle_mod 10 "mods/A" chainDb false true chainFS) "mods/A"
      = some (some ⟨false, none⟩) ∧
    configsAfter (toggle_mod 10 "mods/A" chainDb false true chainFS) "mods/B"
      = some (some ⟨false, none⟩) ∧
    configsAfter (toggle_mod 10 "mods/A" chainDb false true chainFS) "mods/C"
      = some (some ⟨false, none⟩) ∧
    configsAfter (toggle_mod 10 "mods/A" chainDb false true chainFS) "mods/D"
      = chainFS.configs "mods/D" ∧
    chainFS.configs "mods/D" = some (some ⟨true, none⟩) := by
  refine ⟨by decide, by decide, by decide, by decide, by decide⟩

/-- C3 counterexample: the claim says a dependency is toggled
non-recursively, so the dependency's own dependencies are not toggled by
the delegated call. On the chain fixture C is a dependency of B only,
not of A; toggling A recursively nevertheless toggles C (the code passes
`recursive` through), refuting the one-level-delegation claim. -/
theorem delegated_toggle_reaches_dependency_of_dependency :
    chainFS.configs "mods/C" = some (some ⟨true, none⟩) ∧
    configsAfter (toggle_mod 10 "mods/A" chainDb false true chainFS) "mods/C"
      = some (some ⟨false, none⟩) := by
  refine ⟨by decide, by decide⟩

/-- C3 amended: with `recursive = true`, each dependency name that does
not resolve to a local entry is silently skipped (the loop continues
unchanged), and each dependency that does resolve is toggled with the
`recursive` flag passed through — so on success every mod reachable
along dependency edges, not just the first level, ends up with the
requested `enabled` value. -/
theorem toggle_recursive_skips_unresolved_and_propagates
    (fuel : Nat) (p d : String) (rest : List String)
    (localDb : LocalDatabase) (e : Bool) (fs fs' : FS)
    (step : String → FS → TRes) :
    (get_mod localDb d = none →
      toggleDeps step (d :: rest) localDb fs
        = toggleDeps step rest localDb fs) ∧
    (toggle_mod fuel p localDb e true fs = .ok fs' →
      ∀ q, Reaches fs.manifests localDb p q → goodAt q e fs') := by
  constructor
  · intro hnone
    simp [toggleDeps, hnone]
  · intro h q hq
    exact toggle_propagates fuel p localDb e fs fs' h q hq

/-- Witness for C3's amended theorem: an unresolvable name is skipped,
and toggling A on the chain fixture reaches C two edges away. -/
theorem toggle_recursive_skips_unresolved_and_propagates_witness :
    (get_mod chainDb "Nope" = none ∧
      toggleDeps (fun _ fsx => TRes.ok fsx) ["Nope"] chainDb chainFS
        = toggleDeps (fun _ fsx => TRes.ok fsx) [] chainDb chainFS) ∧
    goodAt "mods/C" false
      (runFS (toggle_mod 10 "mods/A" chainDb false true chainFS) chainFS) := by
  have hreach : Reaches chainFS.manifests chainDb "mods/A" "mods/C" := by
    refine Reaches.head (x := "mods/B")
      ⟨⟨"A", some ["B"]⟩, ["B"], "B", ⟨"B", "mods/B"⟩, by decide, rfl,
        by decide, by decide, rfl⟩
      (Reaches.head (x := "mods/C")
        ⟨⟨"B", some ["C"]⟩, ["C"], "C", ⟨"C", "mods/C"⟩, by decide, rfl,
          by decide, by decide, rfl⟩
        (Reaches.refl "mods/C"))
  exact ⟨⟨by decide,
      (toggle_recursive_skips_unresolved_and_propagates 10 "mods/A" "Nope" []
        chainDb false chainFS chainFS (fun _ fsx => TRes.ok fsx)).1 (by decide)⟩,
    (toggle_recursive_skips_unresolved_and_propagates 10 "mods/A" "Nope" []
      chainDb false chainFS
      (runFS (toggle_mod 10 "mods/A" chainDb false true chainFS) chainFS)
      (fun _ fsx => TRes.ok fsx)).2 rfl "mods/C" hreach⟩

/-- C5: a recursive toggle terminates on every install root whose
dependency graph reachable from the toggled mod is acyclic (witnessed by
a rank function decreasing along reachable edges: `2 * rank + 2` frames
of fuel always suffice), and — since the implementation keeps no visited
set — on the concrete cyclic fixture (A depends on B, B depends on A)
the recursion exhausts every fuel bound: it is unbounded. -/
theorem toggle_terminates_iff_no_reachable_cycle :
    (∀ (M : ManifestMap) (localDb : LocalDatabase) (e : Bool)
        (rank : String → Nat) (p : String) (fs : FS),
      fs.manifests = M →
      (∀ x y, Reaches M localDb p x → Edge M localDb x y →
        rank y < rank x) →
      ∀ fuel, 2 * rank p + 2 ≤ fuel →
        toggle_mod fuel p localDb e true fs ≠ .diverge) ∧
    (∀ fuel e, toggle_mod fuel "mods/A" cycleDb e true cycleFS = .diverge) := by
  constructor
  · intro M db e rank p fs hfs hrank fuel hfuel
    exact (toggle_nondiverge_aux M db e rank p hrank fuel p fs hfs
      (Reaches.refl p)).1 hfuel
  · intro fuel e
    exact (cycle_toggle_diverges fuel e cycleFS rfl ⟨_, rfl⟩ ⟨_, rfl⟩).1

/-- Witness for C5's acyclic part on the solo fixture (no dependency
edges at all, rank constantly zero). -/
theorem toggle_terminates_iff_no_reachable_cycle_witness :
    toggle_mod 4 "mods/X" soloDb false true soloFS ≠ TRes.diverge := by
  refine toggle_terminates_iff_no_reachable_cycle.1 soloFS.manifests soloDb
    false (fun _ => 0) "mods/X" soloFS rfl ?_ 4 (by decide)
  intro x y hre he
  obtain ⟨m, deps, d, lm, hm, hd, -, -, -⟩ := he
  have hm' : lookupManifest
      [("mods/X", some (⟨"X", none⟩ : Manifest))] x = some (some m) := hm
  unfold lookupManifest at hm'
  by_cases hx : ("mods/X" : String) = x
  · rw [if_pos hx] at hm'
    injection hm' with hm2
    injection hm2 with hm3
    rw [← hm3] at hd
    exact Option.noConfusion hd
  · rw [if_neg hx] at hm'
    exact Option.noConfusion hm'

end OwModMan
